import Mathlib

/-!
Verification of the ingestion-to-storage pipeline of the crypto data
collector: the SQLite storage layer (database.py), the data processor
(data_processor.py) with its Pandera schema contract (schemas.py), and the
API client retry logic (api_client.py). Each Python function is embedded
as an executable Lean definition; floats are modelled as rationals, SQL
NULL and pandas NaN as `Option.none`, and datetimes as integer timestamps.
-/

namespace CryptoPipeline

/-! ## Storage engine (database.py)

A stored row of the `cryptocurrency_data` table, reduced to the columns
the uniqueness invariant and the claims mention: the UNIQUE key pair
`(coin_id, collected_at)` plus a representative payload column. -/

structure DBRow where
  coin_id : String
  collected_at : Int
  current_price : Option Rat
deriving DecidableEq, Repr

/-- Two rows collide exactly when they agree on the UNIQUE key pair
`(coin_id, collected_at)` declared in `_create_tables`. -/
def keyEq (a b : DBRow) : Bool :=
  a.coin_id == b.coin_id && a.collected_at == b.collected_at

/-- Boolean duplicate-key test inside one batch: `executemany` inserts the
batch rows one by one into the same transaction, so two batch rows sharing
the key pair also raise `sqlite3.IntegrityError`. -/
def hasDupKey : List DBRow → Bool
  | [] => false
  | r :: rs => rs.any (fun s => keyEq r s) || hasDupKey rs

/-- Boolean collision test for a batch against the stored table: some batch
row collides with a stored row, or two batch rows collide with each other.
Either case makes the single INSERT transaction of `to_sql` raise
`sqlite3.IntegrityError`. -/
def hasCollision (tbl batch : List DBRow) : Bool :=
  batch.any (fun b => tbl.any (fun t => keyEq b t)) || hasDupKey batch

/-- Embedding of `CryptoDatabase.insert_dataframe`, with an explicit flag
injecting a storage fault other than a uniqueness violation (any other
exception raised inside the transaction). The code path is:
empty frame returns 0 before any connection is opened; otherwise
`to_sql(if_exists="append")` runs inside `_get_connection`, which commits
on success and rolls back on any exception; `sqlite3.IntegrityError` is
caught and 0 returned; every other exception is also caught
(`except Exception`), logged and 0 returned. The result is the table
after the call together with the returned count; no variant of the result
signals an error, because `insert_dataframe` never lets one escape. -/
def insert_dataframe_run (tbl batch : List DBRow) (otherFault : Bool) :
    List DBRow × Nat :=
  if batch.isEmpty then (tbl, 0)
  else if otherFault then (tbl, 0)
  else if hasCollision tbl batch then (tbl, 0)
  else (tbl ++ batch, batch.length)

/-- `insert_dataframe` on a fault-free run. -/
def insert_dataframe (tbl batch : List DBRow) : List DBRow × Nat :=
  insert_dataframe_run tbl batch false

/-- Embedding of `CryptoDatabase.delete_old_data`: deletes every row whose
`collected_at` is strictly below `now` minus `days_to_keep` days (the SQL
is `collected_at < datetime(now, -days_to_keep days)`), and returns
`cursor.rowcount`, the number of rows the DELETE removed. -/
def delete_old_data (tbl : List DBRow) (days_to_keep : Nat) (now : Int) :
    List DBRow × Nat :=
  let cutoff : Int := now - (days_to_keep : Int) * 86400
  ((tbl.filter fun r => !(decide (r.collected_at < cutoff))),
   (tbl.filter fun r => decide (r.collected_at < cutoff)).length)

end CryptoPipeline

namespace CryptoPipeline

/-! Basic facts about the storage embedding. -/

theorem keyEq_self (r : DBRow) : keyEq r r = true := by
  simp [keyEq]

theorem hasCollision_of_mem (tbl batch : List DBRow)
    (b : DBRow) (hb : b ∈ batch) (t : DBRow) (ht : t ∈ tbl)
    (hk : keyEq b t = true) : hasCollision tbl batch = true := by
  simp only [hasCollision, Bool.or_eq_true, List.any_eq_true]
  exact Or.inl ⟨b, hb, t, ht, hk⟩

theorem hasCollision_self_append (tbl batch : List DBRow)
    (hne : batch ≠ []) : hasCollision (tbl ++ batch) batch = true := by
  obtain ⟨b, bs, rfl⟩ : ∃ b bs, batch = b :: bs := by
    cases batch with
    | nil => exact absurd rfl hne
    | cons b bs => exact ⟨b, bs, rfl⟩
  exact hasCollision_of_mem _ _ b (List.mem_cons_self b bs) b
    (List.mem_append_right tbl (List.mem_cons_self b bs)) (keyEq_self b)

/-- C1: the claim says that in a batch mixing rows that collide on
`(coin_id, collected_at)` with fresh rows, the colliding rows are skipped,
the fresh rows are persisted, and the count equals the number persisted.
On the code this is false: `to_sql` raises `sqlite3.IntegrityError` on the
first collision, `_get_connection` rolls the whole transaction back, and
`insert_dataframe` returns 0. Concretely, with `bitcoin@100` stored and a
batch of a colliding `bitcoin@100` row plus a fresh `ethereum@100` row,
the table is unchanged, the fresh row is absent, and the count is 0, not 1. -/
theorem C1_counterexample :
    insert_dataframe [⟨"bitcoin", 100, some 1⟩]
        [⟨"bitcoin", 100, some 2⟩, ⟨"ethereum", 100, some 3⟩] =
      ([⟨"bitcoin", 100, some 1⟩], 0) ∧
    ¬ ((⟨"ethereum", 100, some 3⟩ : DBRow) ∈
        (insert_dataframe [⟨"bitcoin", 100, some 1⟩]
          [⟨"bitcoin", 100, some 2⟩, ⟨"ethereum", 100, some 3⟩]).1) := by
  decide

theorem hasDupKey_eq_false_iff (l : List DBRow) :
    hasDupKey l = false ↔ l.Pairwise (fun a b => keyEq a b = false) := by
  induction l with
  | nil => simp [hasDupKey]
  | cons r rs ih =>
    rw [show hasDupKey (r :: rs) = (rs.any (fun s => keyEq r s) || hasDupKey rs)
        from rfl]
    rw [Bool.or_eq_false_iff, List.pairwise_cons, ih, List.any_eq_false]
    constructor
    · rintro ⟨h1, h2⟩
      refine ⟨?_, h2⟩
      intro s hs
      have := h1 s hs
      cases hks : keyEq r s with
      | true => exact absurd hks this
      | false => rfl
    · rintro ⟨h1, h2⟩
      refine ⟨?_, h2⟩
      intro s hs hks
      rw [h1 s hs] at hks
      exact Bool.false_ne_true hks

/-- C1 (amended): the upsert is all-or-nothing per batch. If any row of a
nonempty batch collides with a stored row, or two batch rows share the
key pair, the entire batch is discarded, the table is unchanged and 0 is
returned; if no batch row collides with a stored row and the batch rows
are pairwise key-distinct, the whole batch is appended and the returned
count is the full batch size. -/
theorem C1_amended_all_or_nothing (tbl batch : List DBRow) (hne : batch ≠ []) :
    ((∃ b ∈ batch, ∃ t ∈ tbl, keyEq b t = true) →
      insert_dataframe tbl batch = (tbl, 0)) ∧
    (¬ batch.Pairwise (fun a b => keyEq a b = false) →
      insert_dataframe tbl batch = (tbl, 0)) ∧
    (((∀ b ∈ batch, ∀ t ∈ tbl, keyEq b t = false) ∧
        batch.Pairwise (fun a b => keyEq a b = false)) →
      insert_dataframe tbl batch = (tbl ++ batch, batch.length)) := by
  have hb : batch.isEmpty = false := by
    cases batch with
    | nil => exact absurd rfl hne
    | cons b bs => rfl
  refine ⟨?_, ?_, ?_⟩
  · rintro ⟨b, hbmem, t, htmem, hk⟩
    have hc : hasCollision tbl batch = true :=
      hasCollision_of_mem tbl batch b hbmem t htmem hk
    simp [insert_dataframe, insert_dataframe_run, hb, hc]
  · intro hdup
    have hd : hasDupKey batch = true := by
      cases hdk : hasDupKey batch with
      | true => rfl
      | false => exact absurd ((hasDupKey_eq_false_iff batch).mp hdk) hdup
    have hc : hasCollision tbl batch = true := by
      rw [hasCollision, hd, Bool.or_true]
    simp [insert_dataframe, insert_dataframe_run, hb, hc]
  · rintro ⟨hnk, hpw⟩
    have hnd : hasDupKey batch = false := (hasDupKey_eq_false_iff batch).mpr hpw
    have hc : hasCollision tbl batch = false := by
      simp only [hasCollision, Bool.or_eq_false_iff]
      refine ⟨?_, hnd⟩
      simp only [List.any_eq_false]
      intro b hbmem hany
      rw [List.any_eq_true] at hany
      obtain ⟨u, humem, hk⟩ := hany
      rw [hnk b hbmem u humem] at hk
      exact Bool.false_ne_true hk
    simp [insert_dataframe, insert_dataframe_run, hb, hc]

/-- C1 (amended) at concrete inputs: a collision-free singleton batch is
appended in full with count 1, and a batch whose two rows share the key
pair — while colliding with nothing stored — is discarded whole with
count 0 and the table unchanged. -/
theorem C1_amended_witness :
    insert_dataframe [⟨"bitcoin", 100, some 1⟩] [⟨"ethereum", 200, some 2⟩] =
      ([⟨"bitcoin", 100, some 1⟩, ⟨"ethereum", 200, some 2⟩], 1) ∧
    insert_dataframe [⟨"bitcoin", 100, some 1⟩]
        [⟨"ethereum", 200, some 2⟩, ⟨"ethereum", 200, some 3⟩] =
      ([⟨"bitcoin", 100, some 1⟩], 0) :=
  ⟨(C1_amended_all_or_nothing [⟨"bitcoin", 100, some 1⟩]
      [⟨"ethereum", 200, some 2⟩] (by decide)).2.2 ⟨by decide, by decide⟩,
   (C1_amended_all_or_nothing [⟨"bitcoin", 100, some 1⟩]
      [⟨"ethereum", 200, some 2⟩, ⟨"ethereum", 200, some 3⟩]
      (by decide)).2.1 (by decide)⟩

/-- C3: when a storage fault other than a uniqueness violation occurs
inside the upsert transaction, `_get_connection` does roll the transaction
back in full, but `insert_dataframe` then swallows the exception in its
`except Exception` arm and returns 0: nothing resembling a `StorageError`
reaches the caller (the result type of the embedding has no error variant
because the source lets no exception escape). Evaluated at a concrete
failing input: table `[bitcoin@100]`, fresh batch `[ethereum@200]`, fault
injected — the call returns the untouched table and count 0, reporting the
fault as if it were merely zero new rows. -/
theorem C3_fault_swallowed :
    insert_dataframe_run [⟨"bitcoin", 100, some 1⟩] [⟨"ethereum", 200, some 2⟩]
        true =
      ([⟨"bitcoin", 100, some 1⟩], 0) := by
  decide

/-- C5: upserting a batch and then upserting exactly the same batch again
yields 0 on the second call and leaves the table exactly as it was after
the first call, for every table and every batch (idempotence). After a
successful first insert every batch row is present in the table, so the
second call hits the uniqueness constraint and is rolled back whole;
after a failed or empty first call the second call repeats it. -/
theorem C5_insert_dataframe_idempotent (tbl batch : List DBRow) :
    insert_dataframe (insert_dataframe tbl batch).1 batch =
      ((insert_dataframe tbl batch).1, 0) := by
  cases hbe : batch.isEmpty with
  | true =>
    simp [insert_dataframe, insert_dataframe_run, hbe]
  | false =>
    have hne : batch ≠ [] := by
      cases batch with
      | nil => exact absurd hbe (by decide)
      | cons b bs => exact List.cons_ne_nil b bs
    cases hc : hasCollision tbl batch with
    | true =>
      simp [insert_dataframe, insert_dataframe_run, hbe, hc]
    | false =>
      have h2 : hasCollision (tbl ++ batch) batch = true :=
        hasCollision_self_append tbl batch hne
      simp [insert_dataframe, insert_dataframe_run, hbe, hc, h2]

/-- C9: pruning with `days_to_keep = 0` deletes every row whose
`collected_at` lies strictly before the prune instant — hence, on any
table whose rows were all collected in the past (which is how every row is
created: `collected_at` is set to the processing time), it removes all
stored rows and returns exactly the number removed. -/
theorem C9_prune_zero_removes_all (tbl : List DBRow) (now : Int)
    (h : ∀ r ∈ tbl, r.collected_at < now) :
    delete_old_data tbl 0 now = ([], tbl.length) := by
  have hcut : now - ((0 : Nat) : Int) * 86400 = now := by
    norm_num
  have h1 : tbl.filter (fun r => !(decide (r.collected_at < now))) = [] := by
    rw [List.filter_eq_nil_iff]
    intro a ha
    simp [h a ha]
  have h2 : tbl.filter (fun r => decide (r.collected_at < now)) = tbl := by
    rw [List.filter_eq_self]
    intro a ha
    simp [h a ha]
  simp only [delete_old_data, hcut, h1, h2]

/-- C9 at a concrete input: a one-row table collected at time 10, pruned
with horizon 0 at time 100, becomes empty with 1 row reported removed. -/
theorem C9_prune_witness :
    (∀ r ∈ [(⟨"bitcoin", 10, some 1⟩ : DBRow)], r.collected_at < 100) ∧
      delete_old_data [⟨"bitcoin", 10, some 1⟩] 0 100 = ([], 1) :=
  ⟨by decide, C9_prune_zero_removes_all [⟨"bitcoin", 10, some 1⟩] 100 (by decide)⟩

/-! ## Data processor (data_processor.py) and schema contract (schemas.py)

A raw API record as consumed by `process_market_data`: a mapping with
possibly missing keys, restricted to the fields the schema contract and
the derived metrics read. A missing key (`item.get` returning `None`) is
`Option.none`; numbers are rationals standing for the floats. -/

structure RawRecord where
  id : Option String
  symbol : Option String
  name : Option String
  current_price : Option Rat
  market_cap : Option Rat
  total_volume : Option Rat
  high_24h : Option Rat
  low_24h : Option Rat
  ath : Option Rat
  atl : Option Rat
deriving DecidableEq, Repr

/-- One row of the processed DataFrame. `symbol` is a plain string because
the source computes it as `item.get("symbol", "").upper()`, which never
yields null; pandas NaN (from missing inputs or an undefined division) is
`Option.none`; `collected_at` is the processing timestamp stamped onto
every row. -/
structure ProcRecord where
  id : Option String
  symbol : String
  name : Option String
  current_price : Option Rat
  market_cap : Option Rat
  total_volume : Option Rat
  high_24h : Option Rat
  low_24h : Option Rat
  ath : Option Rat
  atl : Option Rat
  volatility_24h : Option Rat
  distance_from_ath : Option Rat
  distance_from_atl : Option Rat
  volume_to_mcap_ratio : Option Rat
  collected_at : Int
deriving DecidableEq, Repr

/-- Embedding of the volatility metric of `_add_calculated_metrics`:
`(high_24h - low_24h) / current_price * 100`, with pandas NaN propagation
(missing input gives a missing result) and the undefined value of a
division by zero modelled as the `none` sentinel. -/
def volatility24h (high low price : Option Rat) : Option Rat :=
  match high, low, price with
  | some h, some l, some p => if p = 0 then none else some ((h - l) / p * 100)
  | _, _, _ => none

/-- Embedding of the two distance metrics of `_add_calculated_metrics`:
`(current_price - ext) / ext * 100` where `ext` is `ath` or `atl`, with
the same NaN propagation and zero-denominator sentinel. -/
def distanceFromExtremum (price ext : Option Rat) : Option Rat :=
  match price, ext with
  | some p, some e => if e = 0 then none else some ((p - e) / e * 100)
  | _, _ => none

/-- Embedding of the ratio metric of `_add_calculated_metrics`:
`total_volume / market_cap`, same conventions. -/
def volumeToMcapRatio (vol mcap : Option Rat) : Option Rat :=
  match vol, mcap with
  | some v, some m => if m = 0 then none else some (v / m)
  | _, _ => none

/-- Embedding of the per-record pipeline of `process_market_data`: the
field-selection loop (`item.get` for each field, symbol defaulted to the
empty string and uppercased), the `collected_at` stamp, and
`_add_calculated_metrics` (`_convert_datatypes` and
`_handle_missing_values` are identities on already-typed values). All
four metric columns are always computed because the selection loop always
creates every input column. -/
def process_record (now : Int) (item : RawRecord) : ProcRecord where
  id := item.id
  symbol := (item.symbol.getD "").toUpper
  name := item.name
  current_price := item.current_price
  market_cap := item.market_cap
  total_volume := item.total_volume
  high_24h := item.high_24h
  low_24h := item.low_24h
  ath := item.ath
  atl := item.atl
  volatility_24h := volatility24h item.high_24h item.low_24h item.current_price
  distance_from_ath := distanceFromExtremum item.current_price item.ath
  distance_from_atl := distanceFromExtremum item.current_price item.atl
  volume_to_mcap_ratio := volumeToMcapRatio item.total_volume item.market_cap
  collected_at := now

/-- Embedding of `MarketDataSchema.validate` (schemas.py) on one processed
row: `id`, `symbol`, `name` non-null; `current_price`, `market_cap`,
`total_volume` each null or at least 0; `collected_at` present. The
`symbol` and `collected_at` checks are vacuous here because the processed
row carries them as non-optional values, exactly as the processor always
materialises them. -/
def validRecord (r : ProcRecord) : Bool :=
  r.id.isSome && r.name.isSome &&
    (match r.current_price with
     | none => true
     | some p => decide (0 ≤ p)) &&
    (match r.market_cap with
     | none => true
     | some p => decide (0 ≤ p)) &&
    (match r.total_volume with
     | none => true
     | some p => decide (0 ≤ p))

/-- How `process_market_data` fails: a `ValueError` on empty input, or a
pandera `SchemaErrors` re-raised after lazy validation of the whole batch. -/
inductive ProcError where
  | emptyInput
  | schemaViolation
deriving DecidableEq, Repr

/-- Embedding of `CryptoDataProcessor.process_market_data`: raises on an
empty batch, otherwise processes every record and validates the batch
against the schema contract, re-raising any violation. -/
def process_market_data (now : Int) (raw : List RawRecord) :
    Except ProcError (List ProcRecord) :=
  if raw.isEmpty then .error .emptyInput
  else
    let df := raw.map (process_record now)
    if df.all validRecord then .ok df else .error .schemaViolation

end CryptoPipeline

namespace CryptoPipeline

/-! Theorems about the processor and the schema contract. -/

theorem volatility24h_isSome_inputs (h l p : Option Rat)
    (hs : (volatility24h h l p).isSome = true) :
    h.isSome = true ∧ l.isSome = true ∧ p.isSome = true := by
  cases h <;> cases l <;> cases p <;> simp_all [volatility24h]

theorem volatility24h_zero_denominator (h l : Option Rat) :
    volatility24h h l (some 0) = none := by
  cases h <;> cases l <;> simp [volatility24h]

theorem distanceFromExtremum_isSome_inputs (p e : Option Rat)
    (hs : (distanceFromExtremum p e).isSome = true) :
    p.isSome = true ∧ e.isSome = true := by
  cases p <;> cases e <;> simp_all [distanceFromExtremum]

theorem distanceFromExtremum_zero_denominator (p : Option Rat) :
    distanceFromExtremum p (some 0) = none := by
  cases p <;> simp [distanceFromExtremum]

theorem volumeToMcapRatio_isSome_inputs (v m : Option Rat)
    (hs : (volumeToMcapRatio v m).isSome = true) :
    v.isSome = true ∧ m.isSome = true := by
  cases v <;> cases m <;> simp_all [volumeToMcapRatio]

theorem volumeToMcapRatio_zero_denominator (v : Option Rat) :
    volumeToMcapRatio v (some 0) = none := by
  cases v <;> simp [volumeToMcapRatio]

theorem toUpper_empty_string : ("" : String).toUpper = "" := by
  rw [String.toUpper, String.map_eq]
  rfl

/-- C6: the claim says a batch in which some record is missing its symbol
or its name is rejected by the schema contract. For a missing symbol this
is false: the processor defaults a missing symbol key to the empty string
before validation, the schema only forbids nulls in the symbol column, and
the batch is accepted. Concretely, a single-record batch with no symbol is
processed to `.ok` and its stored symbol is the empty string. -/
theorem C6_counterexample :
    (process_market_data 0
        [{ id := some "bitcoin", symbol := none, name := some "Bitcoin",
           current_price := some 50000, market_cap := some 1000,
           total_volume := some 500, high_24h := some 51000,
           low_24h := some 49000, ath := some 69000,
           atl := some 68 }]).isOk = true ∧
    (match process_market_data 0
        [{ id := some "bitcoin", symbol := none, name := some "Bitcoin",
           current_price := some 50000, market_cap := some 1000,
           total_volume := some 500, high_24h := some 51000,
           low_24h := some 49000, ath := some 69000,
           atl := some 68 }] with
     | .ok l => l.map (fun r => r.symbol)
     | .error _ => ["missing"]) = [""] := by
  constructor
  · rfl
  · show [("" : String).toUpper] = [""]
    rw [toUpper_empty_string]

/-- C6 (amended): a batch in which some record is missing its name is
rejected — `process_market_data` raises the schema violation instead of
returning a table — while a record missing its symbol is silently given
the empty string as symbol and passes validation (see the counterexample). -/
theorem C6_amended_missing_name_rejected (now : Int) (raw : List RawRecord)
    (hmem : ∃ item ∈ raw, item.name = none) :
    process_market_data now raw = .error .schemaViolation := by
  obtain ⟨item, hitem, hname⟩ := hmem
  have hne : raw.isEmpty = false := by
    cases raw with
    | nil => exact absurd hitem (List.not_mem_nil item)
    | cons a l => rfl
  have hinv : validRecord (process_record now item) = false := by
    simp [validRecord, process_record, hname]
  have hall : (raw.map (process_record now)).all validRecord = false := by
    rw [List.all_eq_false]
    exact ⟨process_record now item, List.mem_map_of_mem (process_record now) hitem,
      by simp [hinv]⟩
  simp [process_market_data, hne, hall]

/-- C6 (amended) at a concrete input: a single-record batch whose name key
is absent is rejected with a schema violation. -/
theorem C6_amended_witness :
    process_market_data 0
        [{ id := some "bitcoin", symbol := some "btc", name := none,
           current_price := some 50000, market_cap := some 1000,
           total_volume := some 500, high_24h := some 51000,
           low_24h := some 49000, ath := some 69000,
           atl := some 68 }] = .error .schemaViolation :=
  C6_amended_missing_name_rejected 0 _ ⟨_, List.mem_singleton_self _, rfl⟩

/-- C7: for every record whose `high_24h`, `low_24h` and `current_price`
are all present with a nonzero price, the derived `volatility_24h` equals
`(high_24h - low_24h) / current_price * 100`. -/
theorem C7_volatility_formula (now : Int) (item : RawRecord) (h l p : Rat)
    (hh : item.high_24h = some h) (hl : item.low_24h = some l)
    (hp : item.current_price = some p) (hpz : p ≠ 0) :
    (process_record now item).volatility_24h = some ((h - l) / p * 100) := by
  simp [process_record, volatility24h, hh, hl, hp, hpz]

/-- C7 at the concrete input of the spec: price 50000, high 51000, low
49000 derive a volatility of exactly 4. -/
theorem C7_volatility_witness :
    (process_record 0
        { id := some "bitcoin", symbol := some "btc", name := some "Bitcoin",
          current_price := some 50000, market_cap := some 1000,
          total_volume := some 500, high_24h := some 51000,
          low_24h := some 49000, ath := some 69000,
          atl := some 68 }).volatility_24h = some 4 := by
  rw [C7_volatility_formula 0 _ 51000 49000 50000 rfl rfl rfl (by norm_num)]
  norm_num

/-- C8: computing the derived fields never raises — every metric is a
total function whose undefined cases are the `none` sentinel: each of the
four derived fields is present only if all of its inputs are present, and
a zero denominator (`current_price`, `ath`, `atl` or `market_cap`) yields
the sentinel instead of a crash. -/
theorem C8_derived_fields_safe (now : Int) (item : RawRecord) :
    ((process_record now item).volatility_24h.isSome = true →
      item.high_24h.isSome = true ∧ item.low_24h.isSome = true ∧
        item.current_price.isSome = true) ∧
    (item.current_price = some 0 →
      (process_record now item).volatility_24h = none) ∧
    ((process_record now item).distance_from_ath.isSome = true →
      item.current_price.isSome = true ∧ item.ath.isSome = true) ∧
    (item.ath = some 0 → (process_record now item).distance_from_ath = none) ∧
    ((process_record now item).distance_from_atl.isSome = true →
      item.current_price.isSome = true ∧ item.atl.isSome = true) ∧
    (item.atl = some 0 → (process_record now item).distance_from_atl = none) ∧
    ((process_record now item).volume_to_mcap_ratio.isSome = true →
      item.total_volume.isSome = true ∧ item.market_cap.isSome = true) ∧
    (item.market_cap = some 0 →
      (process_record now item).volume_to_mcap_ratio = none) := by
  refine ⟨?_, ?_, ?_, ?_, ?_, ?_, ?_, ?_⟩
  · exact fun hs => volatility24h_isSome_inputs _ _ _ hs
  · intro h0
    show volatility24h item.high_24h item.low_24h item.current_price = none
    rw [h0]
    exact volatility24h_zero_denominator _ _
  · exact fun hs => distanceFromExtremum_isSome_inputs _ _ hs
  · intro h0
    show distanceFromExtremum item.current_price item.ath = none
    rw [h0]
    exact distanceFromExtremum_zero_denominator _
  · exact fun hs => distanceFromExtremum_isSome_inputs _ _ hs
  · intro h0
    show distanceFromExtremum item.current_price item.atl = none
    rw [h0]
    exact distanceFromExtremum_zero_denominator _
  · exact fun hs => volumeToMcapRatio_isSome_inputs _ _ hs
  · intro h0
    show volumeToMcapRatio item.total_volume item.market_cap = none
    rw [h0]
    exact volumeToMcapRatio_zero_denominator _

/-- C8 at a concrete input: a record with a zero price, zero market cap
and a missing `atl` gets the sentinel, not a crash, in the corresponding
derived fields. -/
theorem C8_derived_witness :
    (process_record 0
        { id := some "x", symbol := some "x", name := some "X",
          current_price := some 0, market_cap := some 0,
          total_volume := some 1, high_24h := some 2,
          low_24h := some 1, ath := some 3,
          atl := none }).volatility_24h = none ∧
    (process_record 0
        { id := some "x", symbol := some "x", name := some "X",
          current_price := some 0, market_cap := some 0,
          total_volume := some 1, high_24h := some 2,
          low_24h := some 1, ath := some 3,
          atl := none }).volume_to_mcap_ratio = none :=
  ⟨(C8_derived_fields_safe 0 _).2.1 rfl,
   (C8_derived_fields_safe 0 _).2.2.2.2.2.2.2 rfl⟩

/-- C10: the empty-batch no-op guarantee lives only in the storage layer:
`process_market_data` on the empty list raises a `ValueError` (it never
returns an empty table), while `insert_dataframe` on an empty frame
returns 0 and leaves the table untouched. -/
theorem C10_empty_batch_semantics :
    (∀ now : Int, process_market_data now [] = .error .emptyInput) ∧
    (∀ tbl : List DBRow, insert_dataframe tbl [] = (tbl, 0)) := by
  constructor
  · intro now
    rfl
  · intro tbl
    rfl

end CryptoPipeline

namespace CryptoPipeline

/-! ## API client (api_client.py): retry under rate limiting -/

/-- The historical payload of `market_chart/range`: three series of
(millisecond timestamp, value) pairs. -/
structure HistPayload where
  prices : List (Int × Rat)
  market_caps : List (Int × Rat)
  total_volumes : List (Int × Rat)
deriving DecidableEq, Repr

/-- One provider response to a `market_chart/range` request. -/
inductive ApiResp where
  | rateLimited
  | httpError (code : Nat)
  | payload (d : HistPayload)
deriving DecidableEq, Repr

/-- Handling of a non-429 response inside `get_coin_market_chart_range`:
an HTTP error status makes `raise_for_status` throw, which the except
arms catch, returning `None`; a body whose prices series is empty is
rejected as `None`; otherwise the payload is returned. -/
def handleResponse : ApiResp → Option HistPayload
  | .rateLimited => none
  | .httpError _ => none
  | .payload d => if d.prices.isEmpty then none else some d

/-- Embedding of `CoinGeckoClient.get_coin_market_chart_range`. The
provider is an oracle `responses` giving the reply to the nth request for
this coin and range; attempt `i` reads `responses i`. On HTTP 429 the
source sleeps 60 seconds and calls itself recursively, carrying no
attempt counter: the recursion is bounded only by the interpreter
recursion limit, modelled as `fuel` (when the limit is hit the
RecursionError surfaces in the innermost generic except arm and the call
returns `None`). -/
def get_coin_market_chart_range (responses : Nat → ApiResp) :
    Nat → Nat → Option HistPayload
  | 0, _ => none
  | fuel + 1, i =>
    match responses i with
    | .rateLimited => get_coin_market_chart_range responses fuel (i + 1)
    | r => handleResponse r

/-- C4: the claim says a rate-limited fetch retries the same coin at most
once before giving up. On the code this is false: with a provider that
rate-limits the first two requests and then serves data, a claim-compliant
client would have given up after the single allowed retry, but the source
recurses again and returns the payload on its third request (second
retry). -/
theorem C4_counterexample :
    get_coin_market_chart_range
        (fun i => if i < 2 then .rateLimited else .payload ⟨[(1, 10)], [], []⟩)
        10 0 = some ⟨[(1, 10)], [], []⟩ := by
  decide

/-- C4 (amended): retry under rate limiting is unbounded, not capped at
one: for every number `k` of consecutive 429 replies, the client keeps
recursing and returns the handled first non-429 reply, provided the
recursion limit (`fuel`) is not exhausted first; under perpetual rate
limiting it recurses until the recursion limit and returns `None`. The
only bound on retries is the interpreter recursion limit. -/
theorem C4_amended_unbounded_retry (responses : Nat → ApiResp) :
    (∀ k i fuel : Nat, (∀ j, j < k → responses (i + j) = .rateLimited) →
      responses (i + k) ≠ .rateLimited → k < fuel →
      get_coin_market_chart_range responses fuel i =
        handleResponse (responses (i + k))) ∧
    ((∀ j, responses j = .rateLimited) →
      ∀ fuel i, get_coin_market_chart_range responses fuel i = none) := by
  constructor
  · intro k
    induction k with
    | zero =>
      intro i fuel h429 hstop hfuel
      obtain ⟨f, rfl⟩ : ∃ f, fuel = f + 1 := by
        cases fuel with
        | zero => exact absurd hfuel (by omega)
        | succ f => exact ⟨f, rfl⟩
      rw [Nat.add_zero] at hstop ⊢
      cases hr : responses i with
      | rateLimited => exact absurd hr hstop
      | httpError c => simp [get_coin_market_chart_range, hr]
      | payload d => simp [get_coin_market_chart_range, hr]
    | succ k ih =>
      intro i fuel h429 hstop hfuel
      obtain ⟨f, rfl⟩ : ∃ f, fuel = f + 1 := by
        cases fuel with
        | zero => exact absurd hfuel (by omega)
        | succ f => exact ⟨f, rfl⟩
      have h0 : responses i = .rateLimited := by
        have := h429 0 (Nat.succ_pos k)
        rwa [Nat.add_zero] at this
      have hstep : get_coin_market_chart_range responses (f + 1) i =
          get_coin_market_chart_range responses f (i + 1) := by
        simp [get_coin_market_chart_range, h0]
      rw [hstep]
      have harith : i + 1 + k = i + (k + 1) := by omega
      have h429s : ∀ j, j < k → responses (i + 1 + j) = .rateLimited := by
        intro j hj
        have := h429 (j + 1) (by omega)
        have he : i + (j + 1) = i + 1 + j := by omega
        rwa [he] at this
      have hstop1 : responses (i + 1 + k) ≠ .rateLimited := by
        rwa [harith]
      rw [ih (i + 1) f h429s hstop1 (by omega), harith]
  · intro hall fuel
    induction fuel with
    | zero => intro i; rfl
    | succ f ih =>
      intro i
      have h0 : responses i = .rateLimited := hall i
      simp [get_coin_market_chart_range, h0]
      exact ih (i + 1)

/-- C4 (amended) at a concrete input: one 429 followed by a server error
means the second request is handled and `None` returned. -/
theorem C4_amended_witness :
    get_coin_market_chart_range
        (fun i => if i < 1 then ApiResp.rateLimited else .httpError 500)
        5 0 = none := by
  rw [(C4_amended_unbounded_retry
        (fun i => if i < 1 then ApiResp.rateLimited else .httpError 500)).1
      1 0 5 (by decide) (by decide) (by decide)]
  decide

end CryptoPipeline

namespace CryptoPipeline

/-! ## Time-series merger (data_processor.py, process_historical_data)

The merge of the three `(timestamp, value)` series. The source builds a
Python dict keyed by the raw millisecond timestamp in the prices loop
(insertion-ordered, a repeated timestamp replacing the stored record
wholesale), then attaches market caps and volumes only at timestamps the
dict already has, and finally emits the records in dict order. The
constant `coin_id`/`symbol` columns and the millisecond-to-datetime
conversion of the emitted records carry no merge content and are omitted;
`collected_at` stays the raw timestamp key. -/

structure HistRecord where
  collected_at : Int
  current_price : Option Rat
  market_cap : Option Rat
  total_volume : Option Rat
deriving DecidableEq, Repr

/-- The record the prices loop stores at a timestamp:
`data_dict[ts] = {"collected_at": ts, "current_price": price}`, which
replaces any earlier entry for that timestamp wholesale. -/
def freshRecord (ts : Int) (p : Option Rat) : HistRecord :=
  { collected_at := ts, current_price := p, market_cap := none,
    total_volume := none }

/-- One step of the prices loop on the insertion-ordered dictionary:
replace the record at an existing timestamp in place, or append a new
entry at the end. -/
def insertPrice (d : List (Int × HistRecord)) (ts : Int) (p : Rat) :
    List (Int × HistRecord) :=
  match d with
  | [] => [(ts, freshRecord ts (some p))]
  | (k, r) :: rest =>
    if k = ts then (ts, freshRecord ts (some p)) :: rest
    else (k, r) :: insertPrice rest ts p

/-- One step of the market-caps loop: `if ts in data_dict` attach the
value at that exact timestamp, otherwise do nothing. -/
def setCap (d : List (Int × HistRecord)) (ts : Int) (v : Rat) :
    List (Int × HistRecord) :=
  d.map fun kr =>
    if kr.1 = ts then (kr.1, { kr.2 with market_cap := some v }) else kr

/-- One step of the total-volumes loop, identical to `setCap` for the
volume field. -/
def setVol (d : List (Int × HistRecord)) (ts : Int) (v : Rat) :
    List (Int × HistRecord) :=
  d.map fun kr =>
    if kr.1 = ts then (kr.1, { kr.2 with total_volume := some v }) else kr

/-- The prices loop. -/
def pricesFold (prices : List (Int × Rat)) (d : List (Int × HistRecord)) :
    List (Int × HistRecord) :=
  prices.foldl (fun d tp => insertPrice d tp.1 tp.2) d

/-- The market-caps loop. -/
def capsFold (caps : List (Int × Rat)) (d : List (Int × HistRecord)) :
    List (Int × HistRecord) :=
  caps.foldl (fun d tv => setCap d tv.1 tv.2) d

/-- The total-volumes loop. -/
def volsFold (vols : List (Int × Rat)) (d : List (Int × HistRecord)) :
    List (Int × HistRecord) :=
  vols.foldl (fun d tv => setVol d tv.1 tv.2) d

/-- Embedding of `CryptoDataProcessor.process_historical_data` on the
three extracted series: the prices loop builds the dict, the other two
loops decorate existing entries, and the records are emitted in dict
insertion order. -/
def process_historical_data (prices market_caps total_volumes :
    List (Int × Rat)) : List HistRecord :=
  (volsFold total_volumes (capsFold market_caps (pricesFold prices []))).map
    Prod.snd

/-- Timestamps of a series in first-occurrence order, continuing from an
already-collected prefix. -/
def dedupFrom (l : List Int) (acc : List Int) : List Int :=
  l.foldl (fun acc ts => if ts ∈ acc then acc else acc ++ [ts]) acc

/-- Timestamps of a series in first-occurrence order. -/
def dedupFirst (l : List Int) : List Int :=
  dedupFrom l []

/-- Value of the last pair of the series carrying the given timestamp,
folded over a starting accumulator. -/
def lookupLastFrom (l : List (Int × Rat)) (ts : Int) (acc : Option Rat) :
    Option Rat :=
  l.foldl (fun a p => if p.1 = ts then some p.2 else a) acc

/-- Value of the last pair of the series carrying the given timestamp, or
`none` when the timestamp never occurs. -/
def lookupLast (l : List (Int × Rat)) (ts : Int) : Option Rat :=
  lookupLastFrom l ts none

/-- C2: the claim says the merged output has one record per timestamp in
the union of the timestamps of the three series, sorted ascending. On the
code this is false: the dict is keyed only in the prices loop, so a
timestamp present only in the market-caps series is dropped. Concretely,
prices `[(2, 10)]` and market caps `[(1, 5)]` have timestamp union
`{1, 2}`, but the output is the single record at timestamp 2 — no record
at timestamp 1 exists. -/
theorem C2_counterexample :
    process_historical_data [(2, 10)] [(1, 5)] [] =
      [{ collected_at := 2, current_price := some 10, market_cap := none,
         total_volume := none }] := by
  decide

end CryptoPipeline

namespace CryptoPipeline

/-! Facts about the merger embedding leading to the amended C2. -/

theorem lookupLastFrom_of_not_mem (l : List (Int × Rat)) (ts : Int)
    (acc : Option Rat) (h : ts ∉ l.map Prod.fst) :
    lookupLastFrom l ts acc = acc := by
  induction l generalizing acc with
  | nil => rfl
  | cons p rest ih =>
    simp only [List.map_cons, List.mem_cons] at h
    push_neg at h
    obtain ⟨h1, h2⟩ := h
    show lookupLastFrom rest ts (if p.1 = ts then some p.2 else acc) = acc
    rw [if_neg (fun he => h1 he.symm)]
    exact ih acc h2

theorem lookupLastFrom_of_mem (l : List (Int × Rat)) (ts : Int)
    (acc : Option Rat) (h : ts ∈ l.map Prod.fst) :
    lookupLastFrom l ts acc = lookupLast l ts := by
  induction l generalizing acc with
  | nil => exact absurd h (List.not_mem_nil ts)
  | cons p rest ih =>
    by_cases hr : ts ∈ rest.map Prod.fst
    · calc lookupLastFrom (p :: rest) ts acc
          = lookupLastFrom rest ts (if p.1 = ts then some p.2 else acc) := rfl
        _ = lookupLast rest ts := ih _ hr
        _ = lookupLastFrom rest ts (if p.1 = ts then some p.2 else none) :=
            (ih _ hr).symm
        _ = lookupLast (p :: rest) ts := rfl
    · have hp : p.1 = ts := by
        simp only [List.map_cons, List.mem_cons] at h
        rcases h with h | h
        · exact h.symm
        · exact absurd h hr
      calc lookupLastFrom (p :: rest) ts acc
          = lookupLastFrom rest ts (if p.1 = ts then some p.2 else acc) := rfl
        _ = lookupLastFrom rest ts (some p.2) := by rw [if_pos hp]
        _ = some p.2 := lookupLastFrom_of_not_mem rest ts _ hr
        _ = lookupLastFrom rest ts (if p.1 = ts then some p.2 else none) := by
            rw [if_pos hp, lookupLastFrom_of_not_mem rest ts _ hr]
        _ = lookupLast (p :: rest) ts := rfl

theorem insertPrice_keys (d : List (Int × HistRecord)) (ts : Int) (p : Rat) :
    (insertPrice d ts p).map Prod.fst =
      if ts ∈ d.map Prod.fst then d.map Prod.fst
      else d.map Prod.fst ++ [ts] := by
  induction d with
  | nil => simp [insertPrice]
  | cons kr rest ih =>
    obtain ⟨k, r⟩ := kr
    by_cases hk : k = ts
    · subst hk
      simp [insertPrice]
    · have hne : ¬ ts = k := fun he => hk he.symm
      rw [show insertPrice ((k, r) :: rest) ts p =
          (k, r) :: insertPrice rest ts p from by simp [insertPrice, hk]]
      simp only [List.map_cons, ih]
      by_cases hr : ts ∈ rest.map Prod.fst
      · simp [hr, List.mem_cons, hne]
      · simp [hr, List.mem_cons, hne]

theorem insertPrice_keys_nodup (d : List (Int × HistRecord)) (ts : Int)
    (p : Rat) (h : (d.map Prod.fst).Nodup) :
    ((insertPrice d ts p).map Prod.fst).Nodup := by
  rw [insertPrice_keys]
  by_cases hm : ts ∈ d.map Prod.fst
  · rwa [if_pos hm]
  · rw [if_neg hm, List.nodup_append]
    refine ⟨h, List.nodup_singleton ts, ?_⟩
    intro a ha hb
    rw [List.mem_singleton] at hb
    subst hb
    exact hm ha

theorem pricesFold_keys (prices : List (Int × Rat))
    (d : List (Int × HistRecord)) :
    (pricesFold prices d).map Prod.fst =
      dedupFrom (prices.map Prod.fst) (d.map Prod.fst) := by
  induction prices generalizing d with
  | nil => rfl
  | cons tp rest ih =>
    have h1 : pricesFold (tp :: rest) d =
        pricesFold rest (insertPrice d tp.1 tp.2) := rfl
    have h2 : dedupFrom ((tp :: rest).map Prod.fst) (d.map Prod.fst) =
        dedupFrom (rest.map Prod.fst)
          (if tp.1 ∈ d.map Prod.fst then d.map Prod.fst
           else d.map Prod.fst ++ [tp.1]) := rfl
    rw [h1, h2, ih, insertPrice_keys]

theorem mem_insertPrice (d : List (Int × HistRecord)) (ts : Int) (p : Rat)
    (hnd : (d.map Prod.fst).Nodup) (kr : Int × HistRecord)
    (hm : kr ∈ insertPrice d ts p) :
    (kr ∈ d ∧ kr.1 ≠ ts) ∨ kr = (ts, freshRecord ts (some p)) := by
  induction d with
  | nil =>
    right
    simpa [insertPrice] using hm
  | cons hd rest ih =>
    obtain ⟨k, r⟩ := hd
    have hnd1 : k ∉ rest.map Prod.fst ∧ (rest.map Prod.fst).Nodup := by
      rw [List.map_cons, List.nodup_cons] at hnd
      exact hnd
    by_cases hk : k = ts
    · subst hk
      rw [show insertPrice ((k, r) :: rest) k p =
          (k, freshRecord k (some p)) :: rest from by simp [insertPrice]] at hm
      rcases List.mem_cons.mp hm with h | h
      · right
        exact h
      · left
        refine ⟨List.mem_cons_of_mem _ h, ?_⟩
        intro hke
        have hmk : kr.1 ∈ rest.map Prod.fst := List.mem_map_of_mem Prod.fst h
        rw [hke] at hmk
        exact hnd1.1 hmk
    · rw [show insertPrice ((k, r) :: rest) ts p =
          (k, r) :: insertPrice rest ts p from by simp [insertPrice, hk]] at hm
      rcases List.mem_cons.mp hm with h | h
      · left
        constructor
        · rw [h]
          exact List.mem_cons_self _ _
        · rw [h]
          exact hk
      · rcases ih hnd1.2 h with ⟨hmem, hne⟩ | heq
        · left
          exact ⟨List.mem_cons_of_mem _ hmem, hne⟩
        · right
          exact heq

theorem mem_pricesFold (prices : List (Int × Rat))
    (d : List (Int × HistRecord)) (hnd : (d.map Prod.fst).Nodup)
    (kr : Int × HistRecord) (hm : kr ∈ pricesFold prices d) :
    (kr ∈ d ∧ kr.1 ∉ prices.map Prod.fst) ∨
    (kr.1 ∈ prices.map Prod.fst ∧
      kr.2 = freshRecord kr.1 (lookupLast prices kr.1)) := by
  induction prices generalizing d with
  | nil =>
    left
    exact ⟨hm, List.not_mem_nil _⟩
  | cons tp rest ih =>
    have h1 : pricesFold (tp :: rest) d =
        pricesFold rest (insertPrice d tp.1 tp.2) := rfl
    rw [h1] at hm
    have hnd2 : ((insertPrice d tp.1 tp.2).map Prod.fst).Nodup :=
      insertPrice_keys_nodup d tp.1 tp.2 hnd
    rcases ih (insertPrice d tp.1 tp.2) hnd2 hm with ⟨hmem, hnin⟩ | ⟨hin, hval⟩
    · rcases mem_insertPrice d tp.1 tp.2 hnd kr hmem with ⟨hmd, hne⟩ | heq
      · left
        refine ⟨hmd, ?_⟩
        simp only [List.map_cons, List.mem_cons]
        push_neg
        exact ⟨hne, hnin⟩
      · right
        have hk1 : kr.1 = tp.1 := by rw [heq]
        have hk2 : kr.2 = freshRecord tp.1 (some tp.2) := by rw [heq]
        constructor
        · simp [hk1]
        · have hlook : lookupLast (tp :: rest) kr.1 = some tp.2 := by
            show lookupLastFrom rest kr.1
              (if tp.1 = kr.1 then some tp.2 else none) = some tp.2
            rw [if_pos hk1.symm, lookupLastFrom_of_not_mem rest kr.1 _ hnin]
          rw [hlook, hk2, hk1]
    · right
      constructor
      · simp only [List.map_cons, List.mem_cons]
        exact Or.inr hin
      · have hlook : lookupLast (tp :: rest) kr.1 = lookupLast rest kr.1 := by
          show lookupLastFrom rest kr.1
            (if tp.1 = kr.1 then some tp.2 else none) = lookupLast rest kr.1
          exact lookupLastFrom_of_mem rest kr.1 _ hin
        rw [hlook]
        exact hval

theorem capsFold_eq_map (caps : List (Int × Rat))
    (d : List (Int × HistRecord)) :
    capsFold caps d = d.map (fun kr =>
      (kr.1, { kr.2 with
        market_cap := lookupLastFrom caps kr.1 kr.2.market_cap })) := by
  induction caps generalizing d with
  | nil =>
    have hfun : (fun kr : Int × HistRecord =>
        (kr.1, { kr.2 with
          market_cap := lookupLastFrom [] kr.1 kr.2.market_cap })) =
        fun kr => kr := by
      funext kr
      rfl
    rw [hfun]
    exact (List.map_id d).symm
  | cons tv rest ih =>
    have h1 : capsFold (tv :: rest) d = capsFold rest (setCap d tv.1 tv.2) :=
      rfl
    rw [h1, ih]
    simp only [setCap, List.map_map]
    apply List.map_congr_left
    intro kr _
    simp only [Function.comp_apply]
    by_cases hk : kr.1 = tv.1
    · rw [if_pos hk]
      have hlook : lookupLastFrom (tv :: rest) kr.1 kr.2.market_cap =
          lookupLastFrom rest kr.1 (some tv.2) := by
        show lookupLastFrom rest kr.1
          (if tv.1 = kr.1 then some tv.2 else kr.2.market_cap) = _
        rw [if_pos hk.symm]
      rw [hlook]
    · rw [if_neg hk]
      have hlook : lookupLastFrom (tv :: rest) kr.1 kr.2.market_cap =
          lookupLastFrom rest kr.1 kr.2.market_cap := by
        show lookupLastFrom rest kr.1
          (if tv.1 = kr.1 then some tv.2 else kr.2.market_cap) = _
        rw [if_neg (fun he => hk he.symm)]
      rw [hlook]

theorem volsFold_eq_map (vols : List (Int × Rat))
    (d : List (Int × HistRecord)) :
    volsFold vols d = d.map (fun kr =>
      (kr.1, { kr.2 with
        total_volume := lookupLastFrom vols kr.1 kr.2.total_volume })) := by
  induction vols generalizing d with
  | nil =>
    have hfun : (fun kr : Int × HistRecord =>
        (kr.1, { kr.2 with
          total_volume := lookupLastFrom [] kr.1 kr.2.total_volume })) =
        fun kr => kr := by
      funext kr
      rfl
    rw [hfun]
    exact (List.map_id d).symm
  | cons tv rest ih =>
    have h1 : volsFold (tv :: rest) d = volsFold rest (setVol d tv.1 tv.2) :=
      rfl
    rw [h1, ih]
    simp only [setVol, List.map_map]
    apply List.map_congr_left
    intro kr _
    simp only [Function.comp_apply]
    by_cases hk : kr.1 = tv.1
    · rw [if_pos hk]
      have hlook : lookupLastFrom (tv :: rest) kr.1 kr.2.total_volume =
          lookupLastFrom rest kr.1 (some tv.2) := by
        show lookupLastFrom rest kr.1
          (if tv.1 = kr.1 then some tv.2 else kr.2.total_volume) = _
        rw [if_pos hk.symm]
      rw [hlook]
    · rw [if_neg hk]
      have hlook : lookupLastFrom (tv :: rest) kr.1 kr.2.total_volume =
          lookupLastFrom rest kr.1 kr.2.total_volume := by
        show lookupLastFrom rest kr.1
          (if tv.1 = kr.1 then some tv.2 else kr.2.total_volume) = _
        rw [if_neg (fun he => hk he.symm)]
      rw [hlook]

end CryptoPipeline

namespace CryptoPipeline

/-- C2 (amended): the merged output has exactly one record per distinct
timestamp of the prices series, in order of first appearance in that
series (hence sorted ascending exactly when the provider serves prices
ascending) — timestamps occurring only in the market-caps or volumes
series are dropped, not merged. Each record always carries the price (the
last prices entry at its timestamp) and carries market cap and volume
exactly when those series have an entry at that exact timestamp (last
entry winning), null otherwise. -/
theorem C2_amended_prices_keyed (prices caps vols : List (Int × Rat)) :
    ((process_historical_data prices caps vols).map
        (fun r => r.collected_at) = dedupFirst (prices.map Prod.fst)) ∧
    (∀ r ∈ process_historical_data prices caps vols,
      r.current_price = lookupLast prices r.collected_at ∧
      r.market_cap = lookupLast caps r.collected_at ∧
      r.total_volume = lookupLast vols r.collected_at) := by
  have hd0 : ∀ kr ∈ pricesFold prices [], kr.1 ∈ prices.map Prod.fst ∧
      kr.2 = freshRecord kr.1 (lookupLast prices kr.1) := by
    intro kr hm
    rcases mem_pricesFold prices [] (by simp) kr hm with ⟨hmem, _⟩ | h
    · exact absurd hmem (List.not_mem_nil kr)
    · exact h
  have hproc : process_historical_data prices caps vols =
      (pricesFold prices []).map (fun kr =>
        { kr.2 with
          market_cap := lookupLastFrom caps kr.1 kr.2.market_cap,
          total_volume := lookupLastFrom vols kr.1 kr.2.total_volume }) := by
    show (volsFold vols (capsFold caps (pricesFold prices []))).map Prod.snd =
      _
    rw [capsFold_eq_map, volsFold_eq_map, List.map_map, List.map_map]
    apply List.map_congr_left
    intro kr _
    rfl
  constructor
  · rw [hproc, List.map_map]
    have hk := pricesFold_keys prices []
    simp only [List.map_nil] at hk
    show _ = dedupFrom (prices.map Prod.fst) []
    rw [← hk]
    apply List.map_congr_left
    intro kr hkr
    show kr.2.collected_at = kr.1
    rw [(hd0 kr hkr).2]
    rfl
  · intro r hr
    rw [hproc] at hr
    obtain ⟨kr, hkr, rfl⟩ := List.mem_map.mp hr
    obtain ⟨hin, hval⟩ := hd0 kr hkr
    refine ⟨?_, ?_, ?_⟩
    · show kr.2.current_price = lookupLast prices kr.2.collected_at
      rw [hval]
      rfl
    · show lookupLastFrom caps kr.1 kr.2.market_cap =
        lookupLast caps kr.2.collected_at
      rw [hval]
      rfl
    · show lookupLastFrom vols kr.1 kr.2.total_volume =
        lookupLast vols kr.2.collected_at
      rw [hval]
      rfl

/-- C2 (amended) at a concrete input: prices at timestamps 1 and 2 with a
market cap only at 1 merge into records keyed `[1, 2]`, the record at 1
carrying price 7, market cap 5 and a null volume. -/
theorem C2_amended_witness :
    ((process_historical_data [(1, 7), (2, 10)] [(1, 5)] []).map
        (fun r => r.collected_at) = dedupFirst [1, 2]) ∧
    (({ collected_at := 1, current_price := some 7, market_cap := some 5,
        total_volume := none } : HistRecord).current_price =
        lookupLast [(1, 7), (2, 10)] 1 ∧
      ({ collected_at := 1, current_price := some 7, market_cap := some 5,
         total_volume := none } : HistRecord).market_cap =
        lookupLast [(1, 5)] 1 ∧
      ({ collected_at := 1, current_price := some 7, market_cap := some 5,
         total_volume := none } : HistRecord).total_volume =
        lookupLast [] 1) :=
  ⟨(C2_amended_prices_keyed [(1, 7), (2, 10)] [(1, 5)] []).1,
   (C2_amended_prices_keyed [(1, 7), (2, 10)] [(1, 5)] []).2 _ (by decide)⟩

end CryptoPipeline
